import Mathlib

set_option maxRecDepth 100000

/-!
Verification development for the Robust-Audio-Link BFSK modem
(`src/sender.c`, `src/receiver.c`).

The byte-level and control-flow parts of the two programs are embedded
shallowly.  The floating-point signal path (sinf/Hann synthesis, biquads,
and the I/Q energy comparison inside `detect_bit_q`) is abstracted as a
boolean oracle `det : Int → Bool` giving, for each window start position,
the outcome of the energy comparison `p1 > p0` on the processed samples;
everything the receiver does downstream of that comparison (invert flag,
repetition majority, byte assembly, synchronisation control flow, framing,
CRC) is modelled exactly as written in the C source.
-/

/-- Repetition count, `#define REP 3` in both sender.c and receiver.c. -/
def REP : Nat := 3

/-- Receiver length bound: `clen > 2000000u` is rejected (receiver.c:358). -/
def LEN_MAX : Nat := 2000000

/- ---------------- CRC-32 (sender.c:66-81, receiver.c:62-76) ---------------- -/

/-- Reversed CRC-32 polynomial `0xEDB88320` (crc32_init). -/
def CRC_POLY : Nat := 0xEDB88320

/-- One LSB-first CRC step: `c = (c & 1) ? (poly ^ (c >> 1)) : (c >> 1)`
(the inner loop body of `crc32_init`). -/
def crc_step (c : Nat) : Nat :=
  if c &&& 1 = 1 then CRC_POLY ^^^ (c >>> 1) else c >>> 1

/-- `k`-fold iteration of `crc_step`. -/
def crc_iter : Nat → Nat → Nat
  | 0, c => c
  | k + 1, c => crc_iter k (crc_step c)

/-- Table entry `crc32_table[i]`: 8 `crc_step`s applied to `i`
(the loop of `crc32_init`, sender.c:68-75). -/
def crc32_table (i : Nat) : Nat :=
  (List.range 8).foldl (fun c _ => crc_step c) i

/-- Table-driven CRC over a byte list, exactly `crc32_compute`
(sender.c:77-81): `c = table[(c ^ data[i]) & 0xFF] ^ (c >> 8)` with initial
value `0xFFFFFFFF` and final XOR `0xFFFFFFFF`. -/
def crc32_compute (data : List Nat) : Nat :=
  (data.foldl (fun c b => crc32_table ((c ^^^ b) &&& 255) ^^^ (c >>> 8)) 0xFFFFFFFF)
    ^^^ 0xFFFFFFFF

/-- Bit-at-a-time reference CRC-32 (the spec's definition, section 4.1):
reversed polynomial, initial value `0xFFFFFFFF`, final XOR `0xFFFFFFFF`,
reflected input/output; each byte is XORed in and followed by 8 LSB-first
polynomial steps.  Stated from the spec's words for comparison with the
table-driven `crc32_compute`. -/
def crc32_ref (data : List Nat) : Nat :=
  (data.foldl (fun c b => (List.range 8).foldl (fun c2 _ => crc_step c2) (c ^^^ b)) 0xFFFFFFFF)
    ^^^ 0xFFFFFFFF

/- ---------------- Frame building (sender.c:159-174) ---------------- -/

/-- The magic bytes `'S' 'T' 'E' 'G'` (sender.c:166). -/
def STEG_MAGIC : List Nat := [83, 84, 69, 71]

/-- Big-endian serialisation of a 32-bit value:
`(x>>24)&0xFF, (x>>16)&0xFF, (x>>8)&0xFF, x&0xFF` (sender.c:167,171-174). -/
def be32 (x : Nat) : List Nat :=
  [(x >>> 24) &&& 255, (x >>> 16) &&& 255, (x >>> 8) &&& 255, x &&& 255]

/-- The frame the sender emits for ciphertext `C`:
magic, big-endian length, ciphertext, then big-endian CRC-32 of the first
`8 + |C|` bytes (sender.c:159-174). -/
def build_frame (C : List Nat) : List Nat :=
  let body := STEG_MAGIC ++ be32 C.length ++ C
  body ++ be32 (crc32_compute body)

/-- Big-endian read of 4 bytes: `b0<<24 | b1<<16 | b2<<8 | b3`
(receiver.c:357,376). -/
def be32val (l : List Nat) : Nat :=
  (l.getD 0 0) <<< 24 ||| (l.getD 1 0) <<< 16 ||| (l.getD 2 0) <<< 8 ||| l.getD 3 0

/- ---------------- Modulator (sender.c:234-284) ---------------- -/

/-- MSB-first bits of one byte: `(frame[i] >> bitpos) & 1` for
`bitpos = 7 .. 0` (sender.c:260-261). -/
def byte_bits_msb (v : Nat) : List Bool :=
  (List.range 8).map fun k => decide ((v >>> (7 - k)) &&& 1 = 1)

/-- Preamble bit sequence `0,1,0,1,...`: `bit = (b & 1)` (sender.c:238). -/
def preamble_bits (pre_bits : Nat) : List Bool :=
  (List.range pre_bits).map fun b => decide (b % 2 = 1)

/-- The full transmitted symbol sequence: preamble bits (no repetition),
then each frame data bit repeated `REP` times (sender.c:236-282). -/
def tx_bits (pre_bits : Nat) (frame : List Nat) : List Bool :=
  preamble_bits pre_bits ++
    frame.flatMap fun v => (byte_bits_msb v).flatMap fun b => List.replicate REP b

/-- The emitted waveform: each symbol contributes `spb` samples, the value of
sample `s` of symbol `i` being `sample (i*spb + s) bit` — `sample` abstracts
the float computation `clampf (A · hann s spb · sin (2π f_bit (si/fs)))`
with its global sample counter `si` (sender.c:241-254, 265-279). -/
def modulate {α : Type} (sample : Nat → Bool → α) (spb : Nat) (bits : List Bool) : List α :=
  bits.enum.flatMap fun bi => (List.range spb).map fun s => sample (bi.1 * spb + s) bi.2

/- ---------------- Bit and byte decoding (receiver.c:201-238) ---------------- -/

/-- `detect_bit_q` (receiver.c:201-219): the floating-point I/Q energy
comparison `p1 > p0` over the `spb` samples starting at `start` is
abstracted as the oracle `det`; the function returns that bit XORed with
the `invert` flag (`if(invert) bit ^= 1`). -/
def detect_bit_q (det : Int → Bool) (start : Int) (inv : Bool) : Bool :=
  xor (det start) inv

/-- `decode_coded_bit` (receiver.c:221-228): detect `REP` consecutive
symbols at `pos + r*spb`, sum the ones, return `ones > REP/2`. -/
def decode_coded_bit (det : Int → Bool) (pos : Int) (spb : Nat) (inv : Bool) : Bool :=
  decide
    (((List.range REP).foldl
        (fun a r => a + (detect_bit_q det (pos + ((r * spb : Nat) : Int)) inv).toNat) 0)
      > REP / 2)

/-- The loop of `decode_byte` (receiver.c:230-238): `k` remaining bits,
accumulator `v` (`v = (v<<1) | bit`), cursor `pos` advanced by `REP*spb`
per bit. -/
def decode_byte_go (det : Int → Bool) (spb : Nat) (inv : Bool) :
    Nat → Nat → Int → Nat × Int
  | 0, v, pos => (v, pos)
  | k + 1, v, pos =>
    decode_byte_go det spb inv k
      (2 * v + (decode_coded_bit det pos spb inv).toNat)
      (pos + ((REP * spb : Nat) : Int))

/-- `decode_byte` (receiver.c:230-238): 8 repetition-coded bits, MSB first;
returns the byte and the advanced cursor. -/
def decode_byte (det : Int → Bool) (pos : Int) (spb : Nat) (inv : Bool) : Nat × Int :=
  decode_byte_go det spb inv 8 0 pos

/-- Sequential decode of `k` bytes starting at cursor `p` (the header, body
and CRC loops of receiver.c:348,369-374 all decode bytes this way). -/
def decode_bytes (det : Int → Bool) (spb : Nat) (inv : Bool) :
    Nat → Int → List Nat × Int
  | 0, p => ([], p)
  | k + 1, p =>
    let r := decode_byte det p spb inv
    let rest := decode_bytes det spb inv k r.2
    (r.1 :: rest.1, rest.2)

/-- MSB-first bit `i` of the byte list `bs` (bytes past the end read 0). -/
def bytesBits (bs : List Nat) (i : Nat) : Bool :=
  decide (((bs.getD (i / 8) 0) >>> (7 - i % 8)) &&& 1 = 1)

/-- Oracle describing a clean capture of the repetition-coded byte stream
`bs`, whose first data symbol starts at sample `start`: the window starting
at `q` lies inside symbol `(q - start)/spb`, which carries data bit
`sym / REP`.  (Positions before `start` read as bit 0.) -/
def byte_stream_det (bs : List Nat) (start : Int) (spb : Nat) : Int → Bool :=
  fun q => bytesBits bs (((q - start).toNat / spb) / REP)

/- ---------------- Coarse preamble search (receiver.c:241-299) ---------------- -/

/-- Expected preamble bit at index `b`: `(b & 1) ? 1 : 0` (receiver.c:246). -/
def expected_bit (b : Nat) : Bool := decide (b % 2 = 1)

/-- `score_preamble` (receiver.c:241-251): for `b ∈ [0, pre_bits)` with
`pos = off + b*spb`, break as soon as `pos + spb >= n`, otherwise count the
positions whose detected bit equals the alternating expected bit. -/
def score_preamble (det : Int → Bool) (n off : Int) (spb pre_bits : Nat) (inv : Bool) : Nat :=
  ((List.range pre_bits).takeWhile fun b =>
      decide (off + ((b * spb : Nat) : Int) + (spb : Int) < n)).countP
    fun b => detect_bit_q det (off + ((b * spb : Nat) : Int)) inv == expected_bit b

/-- Coarse scan step `max(spb/6, 1)` (receiver.c:284-285,
`SEARCH_STEP_FRAC = 6`). -/
def coarse_step (spb : Nat) : Nat := max (spb / 6) 1

/-- Best-candidate update `if (s > best_score) { best_off/inv/score := ... }`
(receiver.c:293,296).  The state is `(best_off, best_inv, best_score)`,
initially `(-1, 0, -1)`. -/
def best_upd (best : Int × Bool × Int) (off : Int) (inv : Bool) (s : Nat) : Int × Bool × Int :=
  if (s : Int) > best.2.2 then (off, inv, (s : Int)) else best

/-- Result of the coarse scan: the tracked best candidate, the list of
offsets actually evaluated (in order), and whether the scan ended through
the early-termination break. -/
structure CoarseRes where
  best_off : Int
  best_inv : Bool
  best_score : Int
  visited : List Int
  stopped_early : Bool
deriving DecidableEq

/-- The coarse search loop (receiver.c:291-299):
`for(off = 0; off + pre_bits*spb < search_max; off += step)`, scoring both
polarities at each offset and breaking once `best_score > threshold`, where
`threshold` stands for the C expression `(int)(0.93 * pre_bits)`.
Structural recursion on `fuel`; the wrapper passes fuel larger than the
iteration count (the step is ≥ 1), so the 0-fuel case is never reached. -/
def coarse_go (det : Int → Bool) (n : Int) (spb pre_bits : Nat) (threshold search_max : Int) :
    Nat → Int → Int × Bool × Int → CoarseRes
  | 0, _, best => ⟨best.1, best.2.1, best.2.2, [], false⟩
  | fuel + 1, off, best =>
    if off + ((pre_bits * spb : Nat) : Int) < search_max then
      let b1 := best_upd best off false (score_preamble det n off spb pre_bits false)
      let b2 := best_upd b1 off true (score_preamble det n off spb pre_bits true)
      if b2.2.2 > threshold then ⟨b2.1, b2.2.1, b2.2.2, [off], true⟩
      else
        let r := coarse_go det n spb pre_bits threshold search_max fuel
          (off + (coarse_step spb : Int)) b2
        ⟨r.best_off, r.best_inv, r.best_score, off :: r.visited, r.stopped_early⟩
    else ⟨best.1, best.2.1, best.2.2, [], false⟩

/-- The whole coarse search of receiver.c `main` (lines 287-299), from
`off = 0` with initial best `(-1, 0, -1)`. -/
def coarse_scan (det : Int → Bool) (n : Int) (spb pre_bits : Nat)
    (threshold search_max : Int) : CoarseRes :=
  coarse_go det n spb pre_bits threshold search_max (search_max.toNat + 1) 0 (-1, false, -1)

/-- `search_max = min(lround(SEARCH_SECONDS * fs), n)` (receiver.c:281-282);
`SEARCH_SECONDS = 3.0` and `3.0 * fs` is exact in double for the integer
sample rates libsndfile returns, so `lround` gives `3 * fs`. -/
def search_max_of (fs n : Int) : Int := min (3 * fs) n

/-- Claim-shaped early-stopping scan: visit the same offsets, track only the
running best score, and stop as soon as it reaches `stopAt`.  Used to state
what the spec's early-termination sentence predicts (`stopAt = ⌈0.93·pre_bits⌉`)
and what the code does (`stopAt = threshold + 1`). -/
def stop_go (det : Int → Bool) (n : Int) (spb pre_bits : Nat) (stopAt search_max : Int) :
    Nat → Int → Int → List Int
  | 0, _, _ => []
  | fuel + 1, off, bestSc =>
    if off + ((pre_bits * spb : Nat) : Int) < search_max then
      let m := max bestSc
        (max ((score_preamble det n off spb pre_bits false : Nat) : Int)
          ((score_preamble det n off spb pre_bits true : Nat) : Int))
      if stopAt ≤ m then [off]
      else off :: stop_go det n spb pre_bits stopAt search_max fuel
        (off + (coarse_step spb : Int)) m
    else []

/-- Offsets the claim's early-stop rule predicts are evaluated. -/
def stop_visits (det : Int → Bool) (n : Int) (spb pre_bits : Nat)
    (stopAt search_max : Int) : List Int :=
  stop_go det n spb pre_bits stopAt search_max (search_max.toNat + 1) 0 (-1)

/- ---------------- Fine refinement via magic (receiver.c:307-341) ---------------- -/

/-- Refinement step `max(spb/24, 1)` (receiver.c:313-314, `REFINE_STEPS = 24`). -/
def refine_step (spb : Nat) : Nat := max (spb / 24) 1

/-- Speculative decode of four bytes at `p` and comparison against
`"STEG"` (receiver.c:322-328). -/
def magic4 (det : Int → Bool) (p : Int) (spb : Nat) (inv : Bool) : Bool :=
  let r0 := decode_byte det p spb inv
  let r1 := decode_byte det r0.2 spb inv
  let r2 := decode_byte det r1.2 spb inv
  let r3 := decode_byte det r2.2 spb inv
  r0.1 == 83 && r1.1 == 84 && r2.1 == 69 && r3.1 == 71

/-- The refinement loop (receiver.c:316-334):
`for(delta = -spb; delta <= spb; delta += step2)` and inside it
`for(inv_try = 0; inv_try <= 1; inv_try++)`; a candidate is skipped when
`p < 0` or `p + 4*REP*spb*8 >= n`, and the first candidate whose four
decoded bytes are `"STEG"` is returned.  Also returns the list of
`(delta, inv)` pairs actually decoded, in trial order.  Structural
recursion on `fuel`; the wrapper passes fuel larger than the iteration
count. -/
def refine_go (det : Int → Bool) (n : Int) (spb : Nat) (base : Int) :
    Nat → Int → Option (Int × Bool) × List (Int × Bool)
  | 0, _ => (none, [])
  | fuel + 1, delta =>
    if delta ≤ (spb : Int) then
      let p := base + delta
      if p < 0 ∨ n ≤ p + ((4 * REP * spb * 8 : Nat) : Int) then
        refine_go det n spb base fuel (delta + (refine_step spb : Int))
      else if magic4 det p spb false then (some (p, false), [(delta, false)])
      else if magic4 det p spb true then (some (p, true), [(delta, false), (delta, true)])
      else
        let r := refine_go det n spb base fuel (delta + (refine_step spb : Int))
        (r.1, (delta, false) :: (delta, true) :: r.2)
    else (none, [])

/-- The whole refinement stage, from `delta = -spb`. -/
def refine_scan (det : Int → Bool) (n : Int) (spb : Nat) (base : Int) :
    Option (Int × Bool) × List (Int × Bool) :=
  refine_go det n spb base (2 * spb + 2) (-(spb : Int))

/-- The refinement procedure as the spec's sentence describes it: identical
except that at each delta the polarity `binv` found best by the coarse
search is tried first and the opposite one second.  Stated from the claim's
words for comparison with `refine_go`. -/
def refine_claim_go (det : Int → Bool) (n : Int) (spb : Nat) (base : Int) (binv : Bool) :
    Nat → Int → Option (Int × Bool) × List (Int × Bool)
  | 0, _ => (none, [])
  | fuel + 1, delta =>
    if delta ≤ (spb : Int) then
      let p := base + delta
      if p < 0 ∨ n ≤ p + ((4 * REP * spb * 8 : Nat) : Int) then
        refine_claim_go det n spb base binv fuel (delta + (refine_step spb : Int))
      else if magic4 det p spb binv then (some (p, binv), [(delta, binv)])
      else if magic4 det p spb (!binv) then (some (p, !binv), [(delta, binv), (delta, !binv)])
      else
        let r := refine_claim_go det n spb base binv fuel (delta + (refine_step spb : Int))
        (r.1, (delta, binv) :: (delta, !binv) :: r.2)
    else (none, [])

/-- Wrapper for the claim-order refinement. -/
def refine_claim (det : Int → Bool) (n : Int) (spb : Nat) (base : Int) (binv : Bool) :
    Option (Int × Bool) × List (Int × Bool) :=
  refine_claim_go det n spb base binv (2 * spb + 2) (-(spb : Int))

/- ---------------- Receiver driver (receiver.c:343-399) ---------------- -/

/-- Terminal decode failures of the receiver driver (stderr + exit 1 paths). -/
inductive RxErr
  | badMagic
  | badLen
  | crcMismatch
deriving DecidableEq

/-- Result of the frame decode: a terminal error or the verified ciphertext. -/
inductive RxResult
  | err (e : RxErr)
  | ok (body : List Nat)
deriving DecidableEq

/-- Outcome of the post-sync frame decode: the verified ciphertext (or the
error), and the final read cursor.  Decryption (AES-CTR via OpenSSL) is the
spec's external crypto oracle and is out of scope; the driver is modelled
up to the point where the verified ciphertext is handed to it. -/
structure RxOut where
  result : RxResult
  cursor : Int
deriving DecidableEq

/-- The frame decode after refinement (receiver.c:343-386): decode 8 header
bytes, check the magic, extract big-endian `LEN` and reject `LEN == 0` or
`LEN > 2000000`, decode `LEN` ciphertext bytes and 4 CRC bytes, then
compare the stored CRC with the CRC computed over header ++ ciphertext. -/
def rx_driver (det : Int → Bool) (spb : Nat) (inv : Bool) (p : Int) : RxOut :=
  let hr := decode_bytes det spb inv 8 p
  if hr.1.take 4 = STEG_MAGIC then
    let clen := be32val (hr.1.drop 4)
    if clen = 0 ∨ LEN_MAX < clen then ⟨RxResult.err RxErr.badLen, hr.2⟩
    else
      let br := decode_bytes det spb inv clen hr.2
      let cr := decode_bytes det spb inv 4 br.2
      if be32val cr.1 = crc32_compute (hr.1 ++ br.1) then ⟨RxResult.ok br.1, cr.2⟩
      else ⟨RxResult.err RxErr.crcMismatch, cr.2⟩
  else ⟨RxResult.err RxErr.badMagic, hr.2⟩

/- ---------------- Offset sequences and concrete oracles ---------------- -/

/-- The offsets the coarse loop actually steps through: from `off`, while
`off + pre_w < smax`, advancing by `step` (the loop header of
receiver.c:291). -/
def scan_offsets_go (pre_w step smax : Int) : Nat → Int → List Int
  | 0, _ => []
  | fuel + 1, off =>
    if off + pre_w < smax then off :: scan_offsets_go pre_w step smax fuel (off + step)
    else []

/-- Code-shaped offset list from `off = 0`. -/
def scan_offsets (pre_w step smax : Int) : List Int :=
  scan_offsets_go pre_w step smax (smax.toNat + 1) 0

/-- The offsets the claim's sentence describes: every `off ∈ [0, smax)`
with step `step`.  Stated from the claim's words for comparison with the
loop's actual range. -/
def claim_offsets_go (step smax : Int) : Nat → Int → List Int
  | 0, _ => []
  | fuel + 1, off =>
    if off < smax then off :: claim_offsets_go step smax fuel (off + step)
    else []

/-- Claim-shaped offset list from `off = 0`. -/
def claim_offsets (step smax : Int) : List Int :=
  claim_offsets_go step smax (smax.toNat + 1) 0

/-- Silence-like oracle: the energy comparison always reports tone 0. -/
def det0 : Int → Bool := fun _ => false

/-- Oracle for the C3 counterexample (`spb = 40`, `pre_bits = 100`): at
window starts that are multiples of 40 (the offsets probed from `off = 0`)
the detected bit matches the alternating preamble except at the first 7
symbol indices, giving a score of exactly 93; at window starts that are
`6 mod 40` (probed from `off = 6`) it matches everywhere, giving 100. -/
def det1 : Int → Bool := fun q =>
  let qn := q.toNat
  if qn % 40 = 0 then xor (decide ((qn / 40) % 2 = 1)) (decide (qn / 40 < 7))
  else decide ((qn / 40) % 2 = 1)

/-- Oracle for the C4 counterexample: a clean `"STEG"` byte stream whose
first data symbol starts at sample 3960, decodable with `inv = 0`. -/
def det2 : Int → Bool := byte_stream_det [83, 84, 69, 71] 3960 40

/-- Oracle for the C10 evaluation: a clean frame start (`"STEG"`, then
`LEN = 5`) at sample 3960 of a stream that is truncated shortly after the
magic. -/
def det4 : Int → Bool := byte_stream_det [83, 84, 69, 71, 0, 0, 0, 5] 3960 40

/-- Oracle for the C9 witness: a header `"STEG"` with `LEN = 0` starting at
sample 0. -/
def det9 : Int → Bool := byte_stream_det [83, 84, 69, 71, 0, 0, 0, 0] 0 40

/- ---------------- CRC-32 helper lemmas ---------------- -/

theorem xor_left_comm (a b c : Nat) : a ^^^ (b ^^^ c) = b ^^^ (a ^^^ c) := by
  rw [← Nat.xor_assoc, Nat.xor_comm a b, Nat.xor_assoc]

theorem shiftRight_xor (x y k : Nat) : (x ^^^ y) >>> k = x >>> k ^^^ y >>> k := by
  apply Nat.eq_of_testBit_eq
  intro i
  simp [Nat.testBit_shiftRight, Nat.testBit_xor]

theorem crc_step_xor (x y : Nat) : crc_step (x ^^^ y) = crc_step x ^^^ crc_step y := by
  unfold crc_step
  rw [Nat.and_xor_distrib_right]
  have hx : x &&& 1 = 0 ∨ x &&& 1 = 1 := by
    rw [Nat.and_one_is_mod]; exact Nat.mod_two_eq_zero_or_one x
  have hy : y &&& 1 = 0 ∨ y &&& 1 = 1 := by
    rw [Nat.and_one_is_mod]; exact Nat.mod_two_eq_zero_or_one y
  rcases hx with hx | hx <;> rcases hy with hy | hy
  · simp [hx, hy, shiftRight_xor]
  · simp [hx, hy, shiftRight_xor, Nat.xor_assoc, xor_left_comm]
  · simp [hx, hy, shiftRight_xor, Nat.xor_assoc, xor_left_comm]
  · simp only [hx, hy, Nat.xor_self, shiftRight_xor]
    norm_num
    rw [Nat.xor_comm CRC_POLY (x >>> 1), Nat.xor_assoc (x >>> 1) CRC_POLY,
      ← Nat.xor_assoc CRC_POLY CRC_POLY, Nat.xor_self, Nat.zero_xor]

theorem crc_iter_xor (k x y : Nat) : crc_iter k (x ^^^ y) = crc_iter k x ^^^ crc_iter k y := by
  induction k generalizing x y with
  | zero => rfl
  | succ k ih => simp [crc_iter, crc_step_xor, ih]

theorem crc_step_shiftLeft (h k : Nat) : crc_step (h <<< (k + 1)) = h <<< k := by
  have h2 : h <<< (k + 1) = 2 * (h <<< k) := by
    rw [Nat.shiftLeft_eq, Nat.shiftLeft_eq, pow_succ]; ring
  rw [h2]
  unfold crc_step
  have hm : 2 * (h <<< k) &&& 1 = 0 := by
    rw [Nat.and_one_is_mod]; omega
  have hdiv : (2 * (h <<< k)) >>> 1 = h <<< k := by
    rw [Nat.shiftRight_eq_div_pow, pow_one]; omega
  simp [hm, hdiv]

theorem crc_iter_shiftLeft (k h : Nat) : crc_iter k (h <<< k) = h := by
  induction k generalizing h with
  | zero => simp [crc_iter, Nat.shiftLeft_zero]
  | succ k ih => rw [crc_iter, crc_step_shiftLeft, ih]

theorem and_xor_decomp (d : Nat) : (d &&& 255) ^^^ ((d >>> 8) <<< 8) = d := by
  apply Nat.eq_of_testBit_eq
  intro i
  have h255 : (255 : Nat) = 2 ^ 8 - 1 := by norm_num
  rw [Nat.testBit_xor, Nat.testBit_and, Nat.testBit_shiftLeft, Nat.testBit_shiftRight]
  rcases Nat.lt_or_ge i 8 with hi | hi
  · have h1 : (255 : Nat).testBit i = true := by
      rw [h255, Nat.testBit_two_pow_sub_one]
      simpa using hi
    have h2 : decide (i ≥ 8) = false := by simpa using hi
    rw [h1, h2]
    simp
  · have h1 : (255 : Nat).testBit i = false := by
      rw [h255, Nat.testBit_two_pow_sub_one]
      simpa using Nat.not_lt.mpr hi
    have h2 : decide (i ≥ 8) = true := by simpa using hi
    rw [h1, h2, Nat.add_sub_cancel' hi]
    simp

theorem fold8_eq_iter (x : Nat) :
    (List.range 8).foldl (fun c _ => crc_step c) x = crc_iter 8 x := rfl

theorem crc_iter8_byte (d : Nat) : crc_iter 8 d = crc32_table (d &&& 255) ^^^ (d >>> 8) := by
  conv_lhs => rw [← and_xor_decomp d]
  rw [crc_iter_xor, crc_iter_shiftLeft]
  rfl

theorem xor_shiftRight_of_lt (c b : Nat) (hb : b < 256) : (c ^^^ b) >>> 8 = c >>> 8 := by
  apply Nat.eq_of_testBit_eq
  intro i
  rw [Nat.testBit_shiftRight, Nat.testBit_shiftRight, Nat.testBit_xor]
  have hpow : (256 : Nat) ≤ 2 ^ (8 + i) := by
    calc (256 : Nat) = 2 ^ 8 := by norm_num
    _ ≤ 2 ^ (8 + i) := Nat.pow_le_pow_right (by norm_num) (by omega)
  simp [Nat.testBit_lt_two_pow (lt_of_lt_of_le hb hpow)]

theorem crc_fold_eq (l : List Nat) : ∀ c : Nat, (∀ b ∈ l, b < 256) →
    l.foldl (fun c b => crc32_table ((c ^^^ b) &&& 255) ^^^ (c >>> 8)) c
      = l.foldl (fun c b => (List.range 8).foldl (fun c2 _ => crc_step c2) (c ^^^ b)) c := by
  induction l with
  | nil => intro c _; rfl
  | cons b l ih =>
    intro c hl
    simp only [List.foldl_cons]
    rw [fold8_eq_iter, crc_iter8_byte, xor_shiftRight_of_lt c b (hl b (by simp))]
    exact ih _ fun x hx => hl x (by simp [hx])

/-- Claim C7: the table-driven `crc32_compute` (table built from the
reversed polynomial `0xEDB88320`) agrees, on every byte sequence, with the
bit-at-a-time reference definition of CRC-32 (initial value `0xFFFFFFFF`,
final XOR `0xFFFFFFFF`, reflected input/output). -/
theorem crc32_table_driven_eq_ref (data : List Nat) (hdata : ∀ b ∈ data, b < 256) :
    crc32_compute data = crc32_ref data := by
  unfold crc32_compute crc32_ref
  congr 1
  exact crc_fold_eq data 0xFFFFFFFF hdata

/-- Witness for C7 at the concrete byte string `[49, 50, 51]`. -/
theorem crc32_table_driven_eq_ref_witness :
    (∀ b ∈ [49, 50, 51], b < 256) ∧ crc32_compute [49, 50, 51] = crc32_ref [49, 50, 51] :=
  ⟨by decide, crc32_table_driven_eq_ref [49, 50, 51] (by decide)⟩

/- ---------------- Frame wire format (C5) ---------------- -/

/-- Claim C5: for every ciphertext `C`, the sender's frame is the magic
`"STEG"`, the 4-byte big-endian length, the ciphertext, and the big-endian
CRC-32 of the preceding `8 + |C|` bytes; its total length is `|C| + 12`,
and for `|C| = 2` it is exactly
`53 54 45 47 00 00 00 02 C[0] C[1] crc[0] crc[1] crc[2] crc[3]`. -/
theorem frame_wire_format (C : List Nat) (c0 c1 : Nat) :
    build_frame C = STEG_MAGIC ++ be32 C.length ++ C
        ++ be32 (crc32_compute (STEG_MAGIC ++ be32 C.length ++ C)) ∧
    (build_frame C).length = C.length + 12 ∧
    build_frame [c0, c1] = [83, 84, 69, 71, 0, 0, 0, 2, c0, c1]
        ++ be32 (crc32_compute [83, 84, 69, 71, 0, 0, 0, 2, c0, c1]) := by
  refine ⟨by simp [build_frame], ?_, ?_⟩
  · simp [build_frame, be32, STEG_MAGIC]
  · have h2 : be32 2 = [0, 0, 0, 2] := by decide
    simp [build_frame, STEG_MAGIC, h2]

/- ---------------- Modulator output length (C6) ---------------- -/

theorem flatMap_const_length {β γ : Type} (f : β → List γ) (c : Nat) :
    ∀ l : List β, (∀ x ∈ l, (f x).length = c) → (l.flatMap f).length = c * l.length := by
  intro l
  induction l with
  | nil => simp
  | cons x l ih =>
    intro h
    simp only [List.flatMap_cons, List.length_append, List.length_cons]
    rw [h x (by simp), ih fun y hy => h y (by simp [hy])]
    ring

/-- Claim C6: the sender emits exactly `pre_bits + 8·REP·frame_bytes`
symbols and each symbol occupies exactly `spb` samples, so the waveform has
exactly `(pre_bits + 8·REP·frame_bytes)·spb` samples. -/
theorem modulator_output_length {α : Type} (sample : Nat → Bool → α) (spb pre_bits : Nat)
    (frame : List Nat) :
    (tx_bits pre_bits frame).length = pre_bits + 8 * REP * frame.length ∧
    (modulate sample spb (tx_bits pre_bits frame)).length
      = (pre_bits + 8 * REP * frame.length) * spb := by
  have hinner : ∀ v : Nat,
      ((byte_bits_msb v).flatMap fun b => List.replicate REP b).length = REP * 8 := by
    intro v
    rw [flatMap_const_length (fun b => List.replicate REP b) REP _
      (fun b _ => List.length_replicate ..)]
    simp [byte_bits_msb]
  have htx : (tx_bits pre_bits frame).length = pre_bits + 8 * REP * frame.length := by
    unfold tx_bits
    rw [List.length_append, flatMap_const_length _ (REP * 8) frame fun v _ => hinner v]
    have hp : (preamble_bits pre_bits).length = pre_bits := by
      simp [preamble_bits]
    rw [hp]
    ring
  refine ⟨htx, ?_⟩
  unfold modulate
  rw [flatMap_const_length _ spb _ (by intro x _; simp), List.enum_length, htx]
  ring

/- ---------------- Bit and byte decode lemmas (C8, and C4's complement) ---------------- -/

theorem foldl_toNat_eq_countP {β : Type} (f : β → Bool) :
    ∀ (l : List β) (a : Nat), l.foldl (fun acc x => acc + (f x).toNat) a = a + l.countP f := by
  intro l
  induction l with
  | nil => intro a; simp
  | cons x l ih =>
    intro a
    rw [List.foldl_cons, ih, List.countP_cons]
    cases hx : f x <;> simp [hx] <;> try omega

theorem decode_coded_bit_eq_countP (det : Int → Bool) (pos : Int) (spb : Nat) (inv : Bool) :
    decode_coded_bit det pos spb inv =
      decide (((List.range REP).countP
        fun r => detect_bit_q det (pos + ((r * spb : Nat) : Int)) inv) > REP / 2) := by
  unfold decode_coded_bit
  rw [foldl_toNat_eq_countP]
  simp

theorem detect_bit_q_invert (det : Int → Bool) (q : Int) :
    detect_bit_q det q true = !(detect_bit_q det q false) := by
  unfold detect_bit_q
  cases det q <;> rfl

theorem countP_not_eq {β : Type} (p : β → Bool) :
    ∀ l : List β, (l.countP fun x => !(p x)) = l.length - l.countP p := by
  intro l
  induction l with
  | nil => simp
  | cons x l ih =>
    rw [List.countP_cons, List.countP_cons, ih, List.length_cons]
    have hle : l.countP p ≤ l.length := List.countP_le_length p
    cases hx : p x <;> simp [hx] <;> try omega

theorem decode_coded_bit_invert (det : Int → Bool) (pos : Int) (spb : Nat) :
    decode_coded_bit det pos spb true = !(decode_coded_bit det pos spb false) := by
  rw [decode_coded_bit_eq_countP, decode_coded_bit_eq_countP]
  have hcong : ((List.range REP).countP
        fun r => detect_bit_q det (pos + ((r * spb : Nat) : Int)) true)
      = (List.range REP).countP
        fun r => !(detect_bit_q det (pos + ((r * spb : Nat) : Int)) false) :=
    List.countP_congr fun r _ => by simp [detect_bit_q_invert]
  rw [hcong, countP_not_eq]
  set c := (List.range REP).countP
    fun r => detect_bit_q det (pos + ((r * spb : Nat) : Int)) false with hc
  have hle : c ≤ 3 := by
    rw [hc]
    calc (List.range REP).countP _ ≤ (List.range REP).length := List.countP_le_length _
    _ = 3 := by simp [REP]
  have hlen : (List.range REP).length = 3 := by simp [REP]
  rw [hlen]
  have h2 : REP / 2 = 1 := rfl
  rw [h2]
  rcases Nat.lt_or_ge 1 c with h | h
  · have h3 : ¬(3 - c > 1) := by omega
    simp [h, h3]
  · have h3 : ¬(c > 1) := by omega
    have h4 : 3 - c > 1 := by omega
    simp [h3, h4]

theorem decode_byte_go_snd (det : Int → Bool) (spb : Nat) (inv : Bool) :
    ∀ (k : Nat) (v : Nat) (pos : Int),
      (decode_byte_go det spb inv k v pos).2 = pos + ((k * (REP * spb) : Nat) : Int) := by
  intro k
  induction k with
  | zero => intro v pos; simp [decode_byte_go]
  | succ k ih =>
    intro v pos
    simp only [decode_byte_go]
    rw [ih]
    push_cast
    ring

theorem decode_byte_go_fst (det : Int → Bool) (spb : Nat) (inv : Bool) :
    ∀ (k : Nat) (v : Nat) (pos : Int),
      (decode_byte_go det spb inv k v pos).1
        = v * 2 ^ k + ∑ j ∈ Finset.range k, 2 ^ (k - 1 - j)
            * (decode_coded_bit det (pos + ((j * (REP * spb) : Nat) : Int)) spb inv).toNat := by
  intro k
  induction k with
  | zero => intro v pos; simp [decode_byte_go]
  | succ k ih =>
    intro v pos
    simp only [decode_byte_go]
    rw [ih]
    have hS : (∑ j ∈ Finset.range k, 2 ^ (k - 1 - j)
          * (decode_coded_bit det
              (pos + ((REP * spb : Nat) : Int) + ((j * (REP * spb) : Nat) : Int)) spb inv).toNat)
        = ∑ j ∈ Finset.range k, 2 ^ (k + 1 - 1 - (j + 1))
          * (decode_coded_bit det
              (pos + (((j + 1) * (REP * spb) : Nat) : Int)) spb inv).toNat := by
      apply Finset.sum_congr rfl
      intro j _
      have he : k - 1 - j = k + 1 - 1 - (j + 1) := by omega
      have hp : pos + ((REP * spb : Nat) : Int) + ((j * (REP * spb) : Nat) : Int)
          = pos + (((j + 1) * (REP * spb) : Nat) : Int) := by push_cast; ring
      rw [he, hp]
    rw [hS, Finset.sum_range_succ']
    have hp0 : pos + ((0 * (REP * spb) : Nat) : Int) = pos := by push_cast; ring
    have he0 : k + 1 - 1 - 0 = k := by omega
    rw [hp0, he0]
    ring

theorem decode_byte_fst (det : Int → Bool) (pos : Int) (spb : Nat) (inv : Bool) :
    (decode_byte det pos spb inv).1
      = ∑ j ∈ Finset.range 8, 2 ^ (7 - j)
          * (decode_coded_bit det (pos + ((j * (REP * spb) : Nat) : Int)) spb inv).toNat := by
  unfold decode_byte
  rw [decode_byte_go_fst]
  norm_num

theorem decode_byte_snd (det : Int → Bool) (pos : Int) (spb : Nat) (inv : Bool) :
    (decode_byte det pos spb inv).2 = pos + ((8 * (REP * spb) : Nat) : Int) := by
  unfold decode_byte
  rw [decode_byte_go_snd]

theorem decode_byte_invert_add (det : Int → Bool) (pos : Int) (spb : Nat) :
    (decode_byte det pos spb true).1 + (decode_byte det pos spb false).1 = 255 := by
  rw [decode_byte_fst, decode_byte_fst, ← Finset.sum_add_distrib]
  have hterm : ∀ j ∈ Finset.range 8,
      2 ^ (7 - j) * (decode_coded_bit det (pos + ((j * (REP * spb) : Nat) : Int)) spb true).toNat
        + 2 ^ (7 - j)
          * (decode_coded_bit det (pos + ((j * (REP * spb) : Nat) : Int)) spb false).toNat
      = 2 ^ (7 - j) := by
    intro j _
    rw [decode_coded_bit_invert]
    cases decode_coded_bit det (pos + ((j * (REP * spb) : Nat) : Int)) spb false <;> simp
  rw [Finset.sum_congr rfl hterm]
  decide

theorem magic4_not_both (det : Int → Bool) (p : Int) (spb : Nat) :
    ¬(magic4 det p spb false = true ∧ magic4 det p spb true = true) := by
  rintro ⟨hf, ht⟩
  simp only [magic4, Bool.and_eq_true, beq_iff_eq] at hf ht
  have hadd := decode_byte_invert_add det p spb
  omega

/-- Claim C8: a data bit is decoded by detecting `REP` consecutive symbols
and emitting 1 iff strictly more than `REP/2` (integer division) of them
are 1; a byte is 8 such bits assembled MSB-first; and decoding one byte
advances the cursor by exactly `8·REP·spb` samples regardless of the
sample values (the conclusion holds for every oracle `det`). -/
theorem repetition_and_byte_decode (det : Int → Bool) (p q : Int) (spb : Nat) (inv : Bool) :
    (decode_coded_bit det q spb inv =
      decide (((List.range REP).countP
        fun r => detect_bit_q det (q + ((r * spb : Nat) : Int)) inv) > REP / 2)) ∧
    (decode_byte det p spb inv).1
      = (∑ j ∈ Finset.range 8, 2 ^ (7 - j)
          * (decode_coded_bit det (p + ((j * (REP * spb) : Nat) : Int)) spb inv).toNat) ∧
    (decode_byte det p spb inv).2 = p + ((8 * (REP * spb) : Nat) : Int) :=
  ⟨decode_coded_bit_eq_countP det q spb inv, decode_byte_fst det p spb inv,
    decode_byte_snd det p spb inv⟩

/- ---------------- Coarse search lemmas (C2, C3) ---------------- -/

theorem best_upd_snd (best : Int × Bool × Int) (off : Int) (inv : Bool) (s : Nat) :
    (best_upd best off inv s).2.2 = max best.2.2 (s : Int) := by
  unfold best_upd
  by_cases h : (s : Int) > best.2.2
  · rw [if_pos h]
    exact (max_eq_right (le_of_lt h)).symm
  · rw [if_neg h]
    exact (max_eq_left (le_of_not_lt h)).symm

theorem coarse_go_visited_offsets (det : Int → Bool) (n : Int) (spb pre_bits : Nat)
    (threshold smax : Int) :
    ∀ (fuel : Nat) (off : Int) (best : Int × Bool × Int),
      (coarse_go det n spb pre_bits threshold smax fuel off best).stopped_early = false →
      (coarse_go det n spb pre_bits threshold smax fuel off best).visited
        = scan_offsets_go ((pre_bits * spb : Nat) : Int) ((coarse_step spb : Nat) : Int)
            smax fuel off := by
  intro fuel
  induction fuel with
  | zero => intro off best _; rfl
  | succ fuel ih =>
    intro off best hstop
    by_cases hcond : off + ((pre_bits * spb : Nat) : Int) < smax
    · simp only [coarse_go, scan_offsets_go, if_pos hcond] at hstop ⊢
      by_cases hbrk : (best_upd (best_upd best off false
            (score_preamble det n off spb pre_bits false)) off true
            (score_preamble det n off spb pre_bits true)).2.2 > threshold
      · rw [if_pos hbrk] at hstop
        simp at hstop
      · rw [if_neg hbrk] at hstop ⊢
        dsimp only at hstop ⊢
        rw [ih _ _ hstop]
    · simp only [coarse_go, scan_offsets_go, if_neg hcond]

/-- Claim C2 (amended): whenever the scan does not stop early, the offsets
evaluated by the coarse search are exactly `0, step, 2·step, …` for as long
as `off + pre_bits·spb < search_max` — not the whole of `[0, search_max)`. -/
theorem coarse_scan_range (det : Int → Bool) (n : Int) (spb pre_bits : Nat)
    (threshold search_max : Int)
    (h : (coarse_scan det n spb pre_bits threshold search_max).stopped_early = false) :
    (coarse_scan det n spb pre_bits threshold search_max).visited
      = scan_offsets ((pre_bits * spb : Nat) : Int) ((coarse_step spb : Nat) : Int) search_max :=
  coarse_go_visited_offsets det n spb pre_bits threshold search_max _ 0 (-1, false, -1) h

/-- Witness for C2 at a concrete no-early-stop input (`spb = 40`,
`pre_bits = 100`, `n = search_max = 4041`, silence oracle): the scanned
offsets are `0, 6, …, 36`, stopping once `off + 4000 ≥ 4041`. -/
theorem coarse_scan_range_witness :
    (coarse_scan det0 4041 40 100 93 4041).stopped_early = false ∧
    (coarse_scan det0 4041 40 100 93 4041).visited
      = scan_offsets ((100 * 40 : Nat) : Int) ((coarse_step 40 : Nat) : Int) 4041 :=
  ⟨by decide, coarse_scan_range det0 4041 40 100 93 4041 (by decide)⟩

/-- Claim C2 counterexample: with `fs = 2667` (`spb = 40`, `pre_bits = 100`)
and a 100-sample capture, `search_max = min(3·fs, n) = 100`; the claim's
range `[0, 100)` contains the offsets `0, 6, …, 96`, but the scan (which
also never stops early here) evaluates none of them, because its loop
condition is `off + pre_bits·spb < search_max`. -/
theorem coarse_scan_range_counterexample :
    ¬ ((coarse_scan det0 100 40 100 93 100).stopped_early = false →
        (coarse_scan det0 100 40 100 93 100).visited
          = claim_offsets ((coarse_step 40 : Nat) : Int) 100) := by decide

theorem coarse_go_stop_visits (det : Int → Bool) (n : Int) (spb pre_bits : Nat)
    (threshold smax : Int) :
    ∀ (fuel : Nat) (off : Int) (best : Int × Bool × Int),
      (coarse_go det n spb pre_bits threshold smax fuel off best).visited
        = stop_go det n spb pre_bits (threshold + 1) smax fuel off best.2.2 := by
  intro fuel
  induction fuel with
  | zero => intro off best; rfl
  | succ fuel ih =>
    intro off best
    by_cases hcond : off + ((pre_bits * spb : Nat) : Int) < smax
    · simp only [coarse_go, stop_go, if_pos hcond]
      have hmax : (best_upd (best_upd best off false
            (score_preamble det n off spb pre_bits false)) off true
            (score_preamble det n off spb pre_bits true)).2.2
          = max best.2.2 (max ((score_preamble det n off spb pre_bits false : Nat) : Int)
              ((score_preamble det n off spb pre_bits true : Nat) : Int)) := by
        rw [best_upd_snd, best_upd_snd, max_assoc]
      by_cases hbrk : (best_upd (best_upd best off false
            (score_preamble det n off spb pre_bits false)) off true
            (score_preamble det n off spb pre_bits true)).2.2 > threshold
      · rw [if_pos hbrk, if_pos (show threshold + 1
            ≤ max best.2.2 (max ((score_preamble det n off spb pre_bits false : Nat) : Int)
              ((score_preamble det n off spb pre_bits true : Nat) : Int)) by omega)]
      · rw [if_neg hbrk, if_neg (show ¬(threshold + 1
            ≤ max best.2.2 (max ((score_preamble det n off spb pre_bits false : Nat) : Int)
              ((score_preamble det n off spb pre_bits true : Nat) : Int))) by omega)]
        dsimp only
        rw [ih, hmax]
    · simp only [coarse_go, stop_go, if_neg hcond]

/-- Claim C3 (amended): the coarse scan stops exactly when the running best
score becomes strictly greater than the truncated threshold — i.e. reaches
`threshold + 1`, which is `⌊0.93·pre_bits⌋ + 1 = 94` for the program's
`pre_bits = 100` — not when it reaches `⌈0.93·pre_bits⌉ = 93`; otherwise the
full range is scanned. -/
theorem coarse_early_termination (det : Int → Bool) (n : Int) (spb pre_bits : Nat)
    (threshold search_max : Int) :
    (coarse_scan det n spb pre_bits threshold search_max).visited
      = stop_visits det n spb pre_bits (threshold + 1) search_max :=
  coarse_go_stop_visits det n spb pre_bits threshold search_max _ 0 (-1, false, -1)

/-- Claim C3 counterexample: with `spb = 40`, `pre_bits = 100`,
`n = search_max = 4100` and the oracle `det1`, offset 0 scores exactly
93 = ⌈0.93·100⌉, yet the scan continues and also evaluates offset 6
(where it finds 100 and stops): the evaluated offsets are `[0, 6]`, while
the claim's stop-at-93 rule predicts `[0]`. -/
theorem coarse_early_termination_counterexample :
    ¬ ((coarse_scan det1 4100 40 100 93 4100).visited
        = stop_visits det1 4100 40 100 93 4100) := by decide

/- ---------------- Refinement lemmas (C4) ---------------- -/

theorem refine_go_fst_eq (det : Int → Bool) (n : Int) (spb : Nat) (base : Int) (binv : Bool) :
    ∀ (fuel : Nat) (delta : Int),
      (refine_go det n spb base fuel delta).1
        = (refine_claim_go det n spb base binv fuel delta).1 := by
  intro fuel
  induction fuel with
  | zero => intro delta; rfl
  | succ fuel ih =>
    intro delta
    by_cases hd : delta ≤ (spb : Int)
    · simp only [refine_go, refine_claim_go, if_pos hd]
      by_cases hskip : base + delta < 0
          ∨ n ≤ base + delta + ((4 * REP * spb * 8 : Nat) : Int)
      · rw [if_pos hskip, if_pos hskip]
        exact ih _
      · rw [if_neg hskip, if_neg hskip]
        by_cases hmf : magic4 det (base + delta) spb false
        · have hmt : ¬magic4 det (base + delta) spb true = true := fun h =>
            magic4_not_both det (base + delta) spb ⟨hmf, h⟩
          cases binv
          · simp [hmf]
          · simp [hmf, hmt]
        · by_cases hmt : magic4 det (base + delta) spb true
          · cases binv
            · simp [hmf, hmt]
            · simp [hmf, hmt]
          · cases binv
            · simp only [Bool.not_false, if_neg hmf, if_neg hmt]
              exact ih _
            · simp only [Bool.not_true, if_neg hmf, if_neg hmt]
              exact ih _
    · simp only [refine_go, refine_claim_go, if_neg hd]

/-- Claim C4 (amended): at each delta the refinement tries the polarities
in the fixed order `inv = 0` then `inv = 1`, regardless of which polarity
the coarse search found best; the first candidate decoding to `"STEG"` is
accepted.  Because the two polarities decode bitwise-complementary bytes at
the same position, at most one of them can match at a given delta, so the
accepted `(position, invert)` pair always coincides with the one the
claimed best-polarity-first order would accept. -/
theorem refine_polarity_result (det : Int → Bool) (n : Int) (spb : Nat) (base : Int)
    (binv : Bool) :
    (refine_scan det n spb base).1 = (refine_claim det n spb base binv).1 :=
  refine_go_fst_eq det n spb base binv _ _

/-- Claim C4 counterexample: with the oracle `det2` (a clean `"STEG"` at
sample 3960 decodable with `inv = 0`) and coarse best polarity
`binv = 1`, the code's first trial is `(delta = -40, inv = 0)`, which
matches immediately, while the claimed order would first try
`(delta = -40, inv = 1)`; the two trial sequences differ. -/
theorem refine_polarity_order_counterexample :
    ¬(refine_scan det2 7801 40 4000 = refine_claim det2 7801 40 4000 true) := by decide

/- ---------------- Receiver driver lemmas (C9, C10) ---------------- -/

theorem decode_bytes_len (det : Int → Bool) (spb : Nat) (inv : Bool) :
    ∀ (k : Nat) (p : Int), (decode_bytes det spb inv k p).1.length = k := by
  intro k
  induction k with
  | zero => intro p; rfl
  | succ k ih =>
    intro p
    simp only [decode_bytes, List.length_cons]
    rw [ih]

theorem decode_bytes_snd (det : Int → Bool) (spb : Nat) (inv : Bool) :
    ∀ (k : Nat) (p : Int),
      (decode_bytes det spb inv k p).2 = p + ((k * (8 * (REP * spb)) : Nat) : Int) := by
  intro k
  induction k with
  | zero => intro p; simp [decode_bytes]
  | succ k ih =>
    intro p
    simp only [decode_bytes]
    rw [ih, decode_byte_snd]
    push_cast
    ring

theorem refine_go_some_magic (det : Int → Bool) (n : Int) (spb : Nat) (base : Int) :
    ∀ (fuel : Nat) (delta p : Int) (inv : Bool),
      (refine_go det n spb base fuel delta).1 = some (p, inv) →
      magic4 det p spb inv = true := by
  intro fuel
  induction fuel with
  | zero =>
    intro delta p inv h
    exact absurd h (by simp [refine_go])
  | succ fuel ih =>
    intro delta p inv h
    by_cases hd : delta ≤ (spb : Int)
    · simp only [refine_go, if_pos hd] at h
      by_cases hskip : base + delta < 0
          ∨ n ≤ base + delta + ((4 * REP * spb * 8 : Nat) : Int)
      · rw [if_pos hskip] at h
        exact ih _ _ _ h
      · rw [if_neg hskip] at h
        by_cases hmf : magic4 det (base + delta) spb false
        · rw [if_pos hmf] at h
          simp only [Prod.mk.injEq, Option.some.injEq] at h
          obtain ⟨hp, hinv⟩ := h
          rw [← hp, ← hinv]
          exact hmf
        · rw [if_neg hmf] at h
          by_cases hmt : magic4 det (base + delta) spb true
          · rw [if_pos hmt] at h
            simp only [Prod.mk.injEq, Option.some.injEq] at h
            obtain ⟨hp, hinv⟩ := h
            rw [← hp, ← hinv]
            exact hmt
          · rw [if_neg hmt] at h
            exact ih _ _ _ h
    · simp only [refine_go, if_neg hd] at h
      exact absurd h (by simp)

theorem magic4_header (det : Int → Bool) (p : Int) (spb : Nat) (inv : Bool)
    (h : magic4 det p spb inv = true) :
    (decode_bytes det spb inv 8 p).1.take 4 = STEG_MAGIC := by
  simp only [magic4, Bool.and_eq_true, beq_iff_eq] at h
  obtain ⟨⟨⟨h0, h1⟩, h2⟩, h3⟩ := h
  have hunfold : (decode_bytes det spb inv 8 p).1.take 4
      = [(decode_byte det p spb inv).1,
         (decode_byte det (decode_byte det p spb inv).2 spb inv).1,
         (decode_byte det (decode_byte det (decode_byte det p spb inv).2 spb inv).2 spb inv).1,
         (decode_byte det (decode_byte det (decode_byte det
           (decode_byte det p spb inv).2 spb inv).2 spb inv).2 spb inv).1] := rfl
  rw [hunfold, h0, h1, h2, h3]
  rfl

/-- Claim C9: after a successful refinement at `(p, inv)` the header's
magic necessarily re-decodes to `"STEG"`; then, if the big-endian `LEN`
field is 0 or exceeds 2,000,000, the driver fails with `BadLen` with the
read cursor still right after the 8 header bytes — no ciphertext byte is
decoded and no plaintext is produced — and otherwise it goes on to read
exactly `LEN` ciphertext bytes (plus the 4 CRC bytes). -/
theorem badlen_rejection (det : Int → Bool) (n : Int) (spb : Nat) (base p : Int) (inv : Bool)
    (href : (refine_scan det n spb base).1 = some (p, inv)) :
    if be32val ((decode_bytes det spb inv 8 p).1.drop 4) = 0
        ∨ LEN_MAX < be32val ((decode_bytes det spb inv 8 p).1.drop 4) then
      rx_driver det spb inv p
        = ⟨RxResult.err RxErr.badLen, p + ((8 * (8 * (REP * spb)) : Nat) : Int)⟩
    else
      (rx_driver det spb inv p).cursor
          = p + (((12 + be32val ((decode_bytes det spb inv 8 p).1.drop 4))
              * (8 * (REP * spb)) : Nat) : Int)
        ∧ ((rx_driver det spb inv p).result = RxResult.err RxErr.crcMismatch
            ∨ ∃ body, (rx_driver det spb inv p).result = RxResult.ok body
                ∧ body.length = be32val ((decode_bytes det spb inv 8 p).1.drop 4)) := by
  have hmagic := magic4_header det p spb inv
    (refine_go_some_magic det n spb base _ _ p inv href)
  by_cases hlen : be32val ((decode_bytes det spb inv 8 p).1.drop 4) = 0
      ∨ LEN_MAX < be32val ((decode_bytes det spb inv 8 p).1.drop 4)
  · rw [if_pos hlen]
    simp only [rx_driver]
    rw [if_pos hmagic, if_pos hlen, decode_bytes_snd]
  · rw [if_neg hlen]
    simp only [rx_driver]
    rw [if_pos hmagic, if_neg hlen]
    set hr := decode_bytes det spb inv 8 p with hhr
    set L := be32val (hr.1.drop 4) with hLdef
    set br := decode_bytes det spb inv L hr.2 with hbr
    set cr := decode_bytes det spb inv 4 br.2 with hcr
    constructor
    · rw [apply_ite RxOut.cursor]
      dsimp only
      rw [ite_self, hcr, decode_bytes_snd, hbr, decode_bytes_snd, hhr, decode_bytes_snd]
      push_cast
      ring
    · rw [apply_ite RxOut.result]
      dsimp only
      by_cases hcrc : be32val cr.1 = crc32_compute (hr.1 ++ br.1)
      · rw [if_pos hcrc]
        right
        refine ⟨br.1, rfl, ?_⟩
        rw [hbr, decode_bytes_len]
      · rw [if_neg hcrc]
        left
        rfl

/-- Witness for C9 at `det9` (header `"STEG"` with `LEN = 0` starting at
sample 0, `spb = 40`, refinement base 40): refinement accepts `(0, 0)` and
the driver rejects with `BadLen`, the cursor still right after the 8 header
bytes (sample 7680). -/
theorem badlen_rejection_witness :
    rx_driver det9 40 false 0
      = ⟨RxResult.err RxErr.badLen, (0 : Int) + ((8 * (8 * (REP * 40)) : Nat) : Int)⟩ := by
  have h := badlen_rejection det9 3841 40 40 0 false (by decide)
  rw [if_pos (by decide : be32val ((decode_bytes det9 40 false 8 0).1.drop 4) = 0
      ∨ LEN_MAX < be32val ((decode_bytes det9 40 false 8 0).1.drop 4))] at h
  exact h

/-- Claim C10, evaluated at the failing input: on the 7841-sample stream
`det4` the refinement succeeds at `(3960, 0)` — its bounds guard covers
only the 4 magic bytes — and the subsequent frame decode (8 header bytes,
`LEN = 5` ciphertext bytes, 4 CRC bytes) advances the read cursor to
sample 20280, so the last sample index read, 20279, is not `< n = 7841`:
the driver reads far past the end of the captured buffer. -/
theorem frame_decode_reads_out_of_bounds :
    (refine_scan det4 7841 40 4000).1 = some (3960, false) ∧
    (rx_driver det4 40 false 3960).cursor = 20280 ∧
    ¬((20280 : Int) - 1 < 7841) :=
  ⟨by decide, by decide, by decide⟩
